import Mathlib

/-
Verification of the commitment engine of the persistent Merkle-Patricia trie
(package itrie): the recursive commit walk (Txn.Hash / Txn.hash), the hasher
and arena pool discipline, and the proof-material extraction path
(hasher.proofHash and its helpers).

Bytes are modelled as List Nat (each entry a byte value).  The keccak
primitive is an explicit parameter k : List Nat -> List Nat of every
definition that hashes; theorems assume only that it returns 32 bytes.
The fastrlp serializer is an external collaborator of the repository and is
modelled from the specification of the canonical encoding (recursive
list/byte-string scheme).
-/

/-- Minimal big-endian byte representation of a natural number, with an
explicit structural bound so that evaluation reduces in the kernel. -/
def natBEaux : Nat → Nat → List Nat
  | 0, _ => []
  | fuel + 1, n => if n = 0 then [] else natBEaux fuel (n / 256) ++ [n % 256]

/-- Minimal big-endian bytes of a natural number (empty for zero). -/
def natBE (n : Nat) : List Nat := natBEaux n n

/-- RLP header for a byte-string item of the given payload length. -/
def rlpStrHeader (len : Nat) : List Nat :=
  if len < 56 then [0x80 + len] else (0xb7 + (natBE len).length) :: natBE len

/-- RLP header for a list item of the given payload length. -/
def rlpListHeader (len : Nat) : List Nat :=
  if len < 56 then [0xc0 + len] else (0xf7 + (natBE len).length) :: natBE len

/-- Modelled from the spec: the EncodedValue produced by the serializer
capability (fastrlp Value) — either a raw byte string, a composite list
awaiting marshal, or the empty/null marker. -/
inductive RVal where
  | null : RVal
  | bytes : List Nat → RVal
  | arr : List RVal → RVal

mutual

def RVal.beq : RVal → RVal → Bool
  | .null, .null => true
  | .bytes a, .bytes b => a = b
  | .arr a, .arr b => RVal.beqList a b
  | _, _ => false

def RVal.beqList : List RVal → List RVal → Bool
  | [], [] => true
  | a :: r, b :: s => RVal.beq a b && RVal.beqList r s
  | _, _ => false

end

mutual

theorem RVal.beqRefl : ∀ v : RVal, RVal.beq v v = true
  | .null => by simp [RVal.beq]
  | .bytes a => by simp [RVal.beq]
  | .arr a => by simp [RVal.beq, RVal.beqListRefl a]

theorem RVal.beqListRefl : ∀ vs : List RVal, RVal.beqList vs vs = true
  | [] => by simp [RVal.beqList]
  | a :: r => by simp [RVal.beqList, RVal.beqRefl a, RVal.beqListRefl r]

end

mutual

theorem RVal.eqOfBeq : ∀ {a b : RVal}, RVal.beq a b = true → a = b
  | .null, .null, _ => rfl
  | .null, .bytes _, h => by simp [RVal.beq] at h
  | .null, .arr _, h => by simp [RVal.beq] at h
  | .bytes _, .null, h => by simp [RVal.beq] at h
  | .bytes x, .bytes y, h => by simp [RVal.beq] at h; simp [h]
  | .bytes _, .arr _, h => by simp [RVal.beq] at h
  | .arr _, .null, h => by simp [RVal.beq] at h
  | .arr _, .bytes _, h => by simp [RVal.beq] at h
  | .arr x, .arr y, h => by
    simp only [RVal.beq] at h
    simp [RVal.eqListOfBeq h]

theorem RVal.eqListOfBeq : ∀ {a b : List RVal}, RVal.beqList a b = true → a = b
  | [], [], _ => rfl
  | [], _ :: _, h => by simp [RVal.beqList] at h
  | _ :: _, [], h => by simp [RVal.beqList] at h
  | a :: r, b :: s, h => by
    simp only [RVal.beqList, Bool.and_eq_true] at h
    obtain ⟨h1, h2⟩ := h
    simp [RVal.eqOfBeq h1, RVal.eqListOfBeq h2]

end

instance : DecidableEq RVal := fun a b =>
  if h : RVal.beq a b = true then
    .isTrue (RVal.eqOfBeq h)
  else
    .isFalse (fun he => h (he ▸ RVal.beqRefl a))

mutual

/-- Canonical (RLP) encoding of an EncodedValue: the marshal operation of the
serializer capability (fastrlp Value.MarshalTo), modelled from the spec
(recursive list/byte-string scheme; a single byte below 0x80 stands for
itself; the null marker is the empty byte string 0x80). -/
def rlpEncode : RVal → List Nat
  | .null => [0x80]
  | .bytes bs =>
    match bs with
    | [b] => if b ≤ 0x7f then [b] else rlpStrHeader 1 ++ [b]
    | _ => rlpStrHeader bs.length ++ bs
  | .arr vs =>
    let payload := rlpEncodeList vs
    rlpListHeader payload.length ++ payload

def rlpEncodeList : List RVal → List Nat
  | [] => []
  | v :: rest => rlpEncode v ++ rlpEncodeList rest

end

/-- Modelled from the spec: the Len observer of the serializer capability
(fastrlp Value.Len).  For a raw byte-string value it is the raw payload
length (the digest-width test in Txn.Hash compares it against 32); for a
composite value it is the canonical encoded byte length (the inline decision:
encoded byte length below 32 means the subtree is inlined). -/
def RVal.len : RVal → Nat
  | .null => 1
  | .bytes bs => bs.length
  | .arr vs => (rlpEncode (.arr vs)).length

/-- Pack a hex-nibble sequence two nibbles per byte (high nibble first). -/
def nibblesToBytes : List Nat → List Nat
  | a :: b :: rest => (a * 16 + b) :: nibblesToBytes rest
  | _ => []

/-- Modelled from the spec: compact key packing (encodeCompact).  The nibble
sequence may end in the terminator flag value 16 (leaf path); the first byte
carries the flag nibble (2 for a terminated path, plus 1 when the remaining
nibble count is odd) in its high four bits, with the first nibble of an odd
path packed into its low four bits; remaining nibbles go two per byte. -/
def encodeCompact (hex : List Nat) : List Nat :=
  let term := if hex.getLast? = some 16 then 1 else 0
  let hx := if term = 1 then hex.dropLast else hex
  if hx.length % 2 = 1 then
    match hx with
    | n :: rest => (term * 32 + 16 + n) :: nibblesToBytes rest
    | [] => [term * 32 + 16]
  else
    (term * 32) :: nibblesToBytes hx

/-- Modelled from the spec: expansion of a byte key into its hex-nibble form
(two nibbles per byte) followed by the terminator flag value 16. -/
def bytesToHexNibbles (bs : List Nat) : List Nat :=
  (bs.map (fun b => [b / 16, b % 16])).flatten ++ [16]

/-- Modelled from the spec: the node data model.  Node is polymorphic over
the variants ValueNode, HashReference, ShortNode and FullNode; ShortNode and
FullNode carry an optional cached digest.  The extra unknown variant stands
for a value of the open Node interface outside the recognized set, reachable
only through a corrupted node graph. -/
inductive Node where
  | value : List Nat → Node
  | href : List Nat → Node
  | short : List Nat → Node → Option (List Nat) → Node
  | full : List (Option Node) → Option Node → Option (List Nat) → Node
  | unknown : Node

mutual

def Node.beq : Node → Node → Bool
  | .value a, .value b => a = b
  | .href a, .href b => a = b
  | .short k1 c1 h1, .short k2 c2 h2 => k1 = k2 && Node.beq c1 c2 && h1 = h2
  | .full cs1 v1 h1, .full cs2 v2 h2 =>
    Node.beqList cs1 cs2 && Node.beqOpt v1 v2 && h1 = h2
  | .unknown, .unknown => true
  | _, _ => false

def Node.beqList : List (Option Node) → List (Option Node) → Bool
  | [], [] => true
  | none :: r, none :: s => Node.beqList r s
  | some a :: r, some b :: s => Node.beq a b && Node.beqList r s
  | _, _ => false

def Node.beqOpt : Option Node → Option Node → Bool
  | none, none => true
  | some a, some b => Node.beq a b
  | _, _ => false

end

mutual

theorem Node.beq_refl : ∀ n : Node, Node.beq n n = true
  | .value a => by simp [Node.beq]
  | .href a => by simp [Node.beq]
  | .short k c h => by simp [Node.beq, Node.beq_refl c]
  | .full cs v h => by simp [Node.beq, Node.beqList_refl cs, Node.beqOpt_refl v]
  | .unknown => by simp [Node.beq]

theorem Node.beqList_refl : ∀ cs : List (Option Node), Node.beqList cs cs = true
  | [] => by simp [Node.beqList]
  | none :: r => by simp [Node.beqList, Node.beqList_refl r]
  | some c :: r => by simp [Node.beqList, Node.beq_refl c, Node.beqList_refl r]

theorem Node.beqOpt_refl : ∀ v : Option Node, Node.beqOpt v v = true
  | none => by simp [Node.beqOpt]
  | some a => by simp [Node.beqOpt, Node.beq_refl a]

end

mutual

theorem Node.eq_of_beq : ∀ {a b : Node}, Node.beq a b = true → a = b
  | .value x, .value y, h => by simp [Node.beq] at h; simp [h]
  | .value _, .href _, h => by simp [Node.beq] at h
  | .value _, .short _ _ _, h => by simp [Node.beq] at h
  | .value _, .full _ _ _, h => by simp [Node.beq] at h
  | .value _, .unknown, h => by simp [Node.beq] at h
  | .href _, .value _, h => by simp [Node.beq] at h
  | .href x, .href y, h => by simp [Node.beq] at h; simp [h]
  | .href _, .short _ _ _, h => by simp [Node.beq] at h
  | .href _, .full _ _ _, h => by simp [Node.beq] at h
  | .href _, .unknown, h => by simp [Node.beq] at h
  | .short _ _ _, .value _, h => by simp [Node.beq] at h
  | .short _ _ _, .href _, h => by simp [Node.beq] at h
  | .short k1 c1 h1, .short k2 c2 h2, h => by
    simp only [Node.beq, Bool.and_eq_true, decide_eq_true_eq] at h
    obtain ⟨⟨e1, e2⟩, e3⟩ := h
    simp [e1, e3, Node.eq_of_beq e2]
  | .short _ _ _, .full _ _ _, h => by simp [Node.beq] at h
  | .short _ _ _, .unknown, h => by simp [Node.beq] at h
  | .full _ _ _, .value _, h => by simp [Node.beq] at h
  | .full _ _ _, .href _, h => by simp [Node.beq] at h
  | .full _ _ _, .short _ _ _, h => by simp [Node.beq] at h
  | .full cs1 v1 h1, .full cs2 v2 h2, h => by
    simp only [Node.beq, Bool.and_eq_true, decide_eq_true_eq] at h
    obtain ⟨⟨e1, e2⟩, e3⟩ := h
    simp [e3, Node.eqList_of_beq e1, Node.eqOpt_of_beq e2]
  | .full _ _ _, .unknown, h => by simp [Node.beq] at h
  | .unknown, .value _, h => by simp [Node.beq] at h
  | .unknown, .href _, h => by simp [Node.beq] at h
  | .unknown, .short _ _ _, h => by simp [Node.beq] at h
  | .unknown, .full _ _ _, h => by simp [Node.beq] at h
  | .unknown, .unknown, _ => rfl

theorem Node.eqList_of_beq :
    ∀ {a b : List (Option Node)}, Node.beqList a b = true → a = b
  | [], [], _ => rfl
  | [], _ :: _, h => by simp [Node.beqList] at h
  | x :: _, [], h => by cases x <;> simp [Node.beqList] at h
  | none :: r, none :: s, h => by
    simp only [Node.beqList] at h
    simp [Node.eqList_of_beq h]
  | none :: _, some _ :: _, h => by simp [Node.beqList] at h
  | some _ :: _, none :: _, h => by simp [Node.beqList] at h
  | some a :: r, some b :: s, h => by
    simp only [Node.beqList, Bool.and_eq_true] at h
    obtain ⟨h1, h2⟩ := h
    simp [Node.eq_of_beq h1, Node.eqList_of_beq h2]

theorem Node.eqOpt_of_beq : ∀ {a b : Option Node}, Node.beqOpt a b = true → a = b
  | none, none, _ => rfl
  | none, some _, h => by simp [Node.beqOpt] at h
  | some _, none, h => by simp [Node.beqOpt] at h
  | some a, some b, h => by
    simp only [Node.beqOpt] at h
    simp [Node.eq_of_beq h]

end

instance : DecidableEq Node := fun a b =>
  if h : Node.beq a b = true then
    .isTrue (Node.eq_of_beq h)
  else
    .isFalse (fun he => h (he ▸ Node.beq_refl a))

/-- The cached-digest observer of a node (the Node.Hash method of the node
interface): a HashReference always exposes its digest, ShortNode and
FullNode expose their cached digest when set, a ValueNode never does. -/
def Node.hashOf : Node → Option (List Nat)
  | .value _ => none
  | .href d => some d
  | .short _ _ h => h
  | .full _ _ h => h
  | .unknown => none

mutual

/-- Well-formedness of a node graph: every reachable variant is recognized
(no unknown node). -/
def Node.wfN : Node → Bool
  | .value _ => true
  | .href _ => true
  | .short _ c _ => Node.wfN c
  | .full cs v _ => Node.wfList cs && Node.wfOpt v
  | .unknown => false

def Node.wfList : List (Option Node) → Bool
  | [] => true
  | none :: r => Node.wfList r
  | some c :: r => Node.wfN c && Node.wfList r

def Node.wfOpt : Option Node → Bool
  | none => true
  | some c => Node.wfN c

end

/-- The well-known empty-trie digest constant (emptyRoot): the fixed literal
32-byte value 56e81f171bcc55a6ff8345e692c0f86e5b48e01b996cadc001622fb5e363b421. -/
def emptyRoot : List Nat :=
  [0x56, 0xe8, 0x1f, 0x17, 0x1b, 0xcc, 0x55, 0xa6,
   0xff, 0x83, 0x45, 0xe6, 0x92, 0xc0, 0xf8, 0x6e,
   0x5b, 0x48, 0xe0, 0x1b, 0x99, 0x6c, 0xad, 0xc0,
   0x01, 0x62, 0x2f, 0xb5, 0xe3, 0x63, 0xb4, 0x21]

/-- Observable effect state of a commit pass: the ordered sink writes
(batch.Put calls), the number of arenas currently held by the hasher
(length of hasher.arena), and counters for digest computations
(hasher.Hash), marshal operations (Value.MarshalTo inside the walk) and
node entries of the recursive walk. -/
structure St where
  writes : List (List Nat × List Nat)
  arena : Nat
  hashCnt : Nat
  encCnt : Nat
  entries : Nat
deriving DecidableEq, Repr

/-- State with one more node entry recorded. -/
def St.enter (st : St) : St := { st with entries := st.entries + 1 }

/-- The state at the start of a commit pass. -/
def St.init : St := ⟨[], 0, 0, 0, 0⟩

/-- Outcome of an operation: a result, a fatal unrecoverable fault (panic),
or a recoverable error result. -/
inductive Res (α : Type) where
  | ok : α → Res α
  | panic : String → Res α
  | error : String → Res α
deriving DecidableEq, Repr

/-- The digest primitive of the pool hasher (hasher.Hash): feeds the data to
the keccak context and aborts fatally when the produced digest is not
exactly 32 bytes long. -/
def hasherHash (k : List Nat → List Nat) (data : List Nat) : Res (List Nat) :=
  let d := k data
  if d.length = 32 then .ok d else .panic "incorrect length"

example : hasherHash (fun _ => List.replicate 32 0) [1, 2] =
    .ok (List.replicate 32 0) := by decide

example : hasherHash (fun _ => [5]) [1, 2] = .panic "incorrect length" := by decide

mutual

/-- The recursive commit walk (Txn.hash): embeds the source function
faithfully.  Arguments: the keccak primitive k, whether a batch sink is
attached (b), the node, the identifier of the arena of the caller (the
current count doubles as the identifier of the next acquired arena), and the
effect state.  Returns the encoded value, the node with any newly cached
digest, and the updated state.  A node that already carries a cached digest
is returned as a byte value wrapping that digest without recursion.  The
depth argument of the source is dropped: it is never read. -/
def walkN (k : List Nat → List Nat) (b : Bool) :
    Node → Nat → St → Res (RVal × Node × St)
  | .value buf, _, st => .ok (.bytes buf, .value buf, st.enter)
  | .href d, _, st => .ok (.bytes d, .href d, st.enter)
  | .unknown, _, _ => .panic "unknown node type"
  | .short key c cache, a, st =>
    match cache with
    | some d => .ok (.bytes d, .short key c (some d), st.enter)
    | none =>
      match walkN k b c a st.enter with
      | .panic m => .panic m
      | .error m => .error m
      | .ok (cv, c1, st1) =>
        let comp := RVal.arr [.bytes (encodeCompact key), cv]
        if comp.len < 32 then
          .ok (comp, .short key c1 none, st1)
        else
          let enc := rlpEncode comp
          let st2 := { st1 with encCnt := st1.encCnt + 1 }
          match hasherHash k enc with
          | .panic m => .panic m
          | .error m => .error m
          | .ok dg =>
            let st3 := { st2 with hashCnt := st2.hashCnt + 1 }
            let st4 :=
              if b then { st3 with writes := st3.writes ++ [(dg, enc)] } else st3
            .ok (.bytes dg, .short key c1 (some dg), st4)
  | .full cs v cache, a, st =>
    match cache with
    | some d => .ok (.bytes d, .full cs v (some d), st.enter)
    | none =>
      let st0 := st.enter
      let idx := st0.arena
      let st1 := { st0 with arena := st0.arena + 1 }
      match walkList k b cs idx st1 with
      | .panic m => .panic m
      | .error m => .error m
      | .ok (cvs, cs1, st2) =>
        match walkOpt k b v a st2 with
        | .panic m => .panic m
        | .error m => .error m
        | .ok (vv, v1, st3) =>
          let comp := RVal.arr (cvs ++ [vv])
          if comp.len < 32 then
            .ok (comp, .full cs1 v1 none, st3)
          else
            let enc := rlpEncode comp
            let st4 := { st3 with encCnt := st3.encCnt + 1 }
            let st5 := { st4 with arena := idx }
            match hasherHash k enc with
            | .panic m => .panic m
            | .error m => .error m
            | .ok dg =>
              let st6 := { st5 with hashCnt := st5.hashCnt + 1 }
              let st7 :=
                if b then { st6 with writes := st6.writes ++ [(dg, enc)] } else st6
              .ok (.bytes dg, .full cs1 v1 (some dg), st7)

/-- The children loop of the FullNode branch: slots are processed in
ascending index order; an absent child contributes the null marker, a
present child is walked with the arena dedicated to the children. -/
def walkList (k : List Nat → List Nat) (b : Bool) :
    List (Option Node) → Nat → St → Res (List RVal × List (Option Node) × St)
  | [], _, st => .ok ([], [], st)
  | none :: rest, a, st =>
    match walkList k b rest a st with
    | .panic m => .panic m
    | .error m => .error m
    | .ok (vs, cs1, st1) => .ok (.null :: vs, none :: cs1, st1)
  | some c :: rest, a, st =>
    match walkN k b c a st with
    | .panic m => .panic m
    | .error m => .error m
    | .ok (cv, c1, st1) =>
      match walkList k b rest a st1 with
      | .panic m => .panic m
      | .error m => .error m
      | .ok (vs, cs1, st2) => .ok (cv :: vs, some c1 :: cs1, st2)

/-- The value slot of the FullNode branch: absent contributes the null
marker, a present value node is walked with the arena of the parent. -/
def walkOpt (k : List Nat → List Nat) (b : Bool) :
    Option Node → Nat → St → Res (RVal × Option Node × St)
  | none, _, st => .ok (.null, none, st)
  | some vn, a, st =>
    match walkN k b vn a st with
    | .panic m => .panic m
    | .error m => .error m
    | .ok (vv, v1, st1) => .ok (vv, some v1, st1)

end

/-- A trie transaction as seen by the commitment engine: the optional root
node and whether a batch sink is attached. -/
structure Txn where
  root : Option Node
  batch : Bool

/-- The top-level Hash operation (Txn.Hash).  An absent root returns the
empty-trie constant immediately.  Otherwise the walk runs with a freshly
acquired arena; the REDO block then reduces the walk result to the root
digest: an exact 32-byte byte value is copied as is, any other byte value is
hashed (and queued when a sink is attached), and a composite value is
marshalled, hashed and queued likewise.  All arenas are released at the
end. -/
def Txn.Hash (k : List Nat → List Nat) (t : Txn) :
    Res (List Nat × Option Node × St) :=
  match t.root with
  | none => .ok (emptyRoot, none, St.init)
  | some n =>
    let st0 : St := { St.init with arena := 1 }
    match walkN k t.batch n 0 st0 with
    | .panic m => .panic m
    | .error m => .error m
    | .ok (val, n1, st1) =>
      match val with
      | .bytes bs =>
        if bs.length ≠ 32 then
          let root := k bs
          let st2 :=
            if t.batch then { st1 with writes := st1.writes ++ [(root, bs)] } else st1
          .ok (root, some n1, { st2 with arena := 0 })
        else
          .ok (bs, some n1, { st1 with arena := 0 })
      | other =>
        let tmp := rlpEncode other
        let root := k tmp
        let st2 :=
          if t.batch then { st1 with writes := st1.writes ++ [(root, tmp)] } else st1
        .ok (root, some n1, { st2 with arena := 0 })

/-- The root digest component of a Hash outcome. -/
def rootOf : Res (List Nat × Option Node × St) → Option (List Nat)
  | .ok (r, _, _) => some r
  | _ => none

example :
    walkN (fun _ => List.replicate 32 0) true (.short [1, 16] (.value [2]) none) 0
      St.init =
    .ok (.arr [.bytes [49], .bytes [2]], .short [1, 16] (.value [2]) none,
      ⟨[], 0, 0, 0, 2⟩) := by decide

example :
    Txn.Hash (fun _ => List.replicate 32 0) ⟨some (.short [1, 16] (.value [2]) none), true⟩ =
    .ok (List.replicate 32 0, some (.short [1, 16] (.value [2]) none),
      ⟨[(List.replicate 32 0, [0xc2, 49, 2])], 0, 0, 0, 2⟩) := by decide

/-- Pure summary of walking one node: the returned encoded value, the node
after the walk (with any newly cached digest), the queued writes, the number
of arenas left held, the number of digest computations and the number of
node entries. -/
structure Eff where
  rv : RVal
  nd : Node
  puts : List (List Nat × List Nat)
  leak : Nat
  digs : Nat
  ents : Nat
deriving DecidableEq

/-- Pure summary of walking a children list. -/
structure EffL where
  rvs : List RVal
  nds : List (Option Node)
  puts : List (List Nat × List Nat)
  leak : Nat
  digs : Nat
  ents : Nat
deriving DecidableEq

/-- Pure summary of walking an optional value node. -/
structure EffO where
  rv : RVal
  nd : Option Node
  puts : List (List Nat × List Nat)
  leak : Nat
  digs : Nat
  ents : Nat
deriving DecidableEq

mutual

/-- Pure reference mirror of the commit walk: computes, as a function of the
node alone, every observable of walkN under a 32-byte digest primitive. -/
def refN (k : List Nat → List Nat) : Node → Eff
  | .value bs => ⟨.bytes bs, .value bs, [], 0, 0, 1⟩
  | .href d => ⟨.bytes d, .href d, [], 0, 0, 1⟩
  | .unknown => ⟨.null, .unknown, [], 0, 0, 1⟩
  | .short key c cache =>
    match cache with
    | some d => ⟨.bytes d, .short key c (some d), [], 0, 0, 1⟩
    | none =>
      let rc := refN k c
      let comp := RVal.arr [.bytes (encodeCompact key), rc.rv]
      if comp.len < 32 then
        ⟨comp, .short key rc.nd none, rc.puts, rc.leak, rc.digs, 1 + rc.ents⟩
      else
        let enc := rlpEncode comp
        let dg := k enc
        ⟨.bytes dg, .short key rc.nd (some dg), rc.puts ++ [(dg, enc)],
          rc.leak, rc.digs + 1, 1 + rc.ents⟩
  | .full cs v cache =>
    match cache with
    | some d => ⟨.bytes d, .full cs v (some d), [], 0, 0, 1⟩
    | none =>
      let rcs := refList k cs
      let rv := refOpt k v
      let comp := RVal.arr (rcs.rvs ++ [rv.rv])
      if comp.len < 32 then
        ⟨comp, .full rcs.nds rv.nd none, rcs.puts ++ rv.puts,
          1 + rcs.leak + rv.leak, rcs.digs + rv.digs, 1 + rcs.ents + rv.ents⟩
      else
        let enc := rlpEncode comp
        let dg := k enc
        ⟨.bytes dg, .full rcs.nds rv.nd (some dg),
          rcs.puts ++ rv.puts ++ [(dg, enc)], 0, rcs.digs + rv.digs + 1,
          1 + rcs.ents + rv.ents⟩

def refList (k : List Nat → List Nat) : List (Option Node) → EffL
  | [] => ⟨[], [], [], 0, 0, 0⟩
  | none :: rest =>
    let r := refList k rest
    ⟨.null :: r.rvs, none :: r.nds, r.puts, r.leak, r.digs, r.ents⟩
  | some c :: rest =>
    let e := refN k c
    let r := refList k rest
    ⟨e.rv :: r.rvs, some e.nd :: r.nds, e.puts ++ r.puts, e.leak + r.leak,
      e.digs + r.digs, e.ents + r.ents⟩

def refOpt (k : List Nat → List Nat) : Option Node → EffO
  | none => ⟨.null, none, [], 0, 0, 0⟩
  | some vn =>
    let e := refN k vn
    ⟨e.rv, some e.nd, e.puts, e.leak, e.digs, e.ents⟩

end

mutual

/-- Bridge: under a digest primitive that always returns 32 bytes, the
effectful commit walk on a well-formed node succeeds and every observable —
returned value, updated node, queued writes, held arenas and work counters —
is given by the pure mirror refN. -/
theorem walkN_spec (k : List Nat → List Nat) (hk : ∀ bs, (k bs).length = 32)
    (b : Bool) :
    ∀ n : Node, Node.wfN n = true → ∀ (a : Nat) (st : St),
      walkN k b n a st =
        .ok ((refN k n).rv, (refN k n).nd,
          ⟨st.writes ++ (if b then (refN k n).puts else []),
            st.arena + (refN k n).leak,
            st.hashCnt + (refN k n).digs,
            st.encCnt + (refN k n).digs,
            st.entries + (refN k n).ents⟩)
  | .value bs, _, a, st => by
    simp [walkN, refN, St.enter]
  | .href d, _, a, st => by
    simp [walkN, refN, St.enter]
  | .short key c cache, hwf, a, st => by
    match cache with
    | some d => simp [walkN, refN, St.enter]
    | none =>
      have hc := walkN_spec k hk b c (by simpa [Node.wfN] using hwf) a st.enter
      simp only [walkN, refN]
      rw [hc]
      simp only []
      split
      · cases b <;> simp [St.enter, St.mk.injEq, List.append_assoc] <;> omega
      · simp only [hasherHash, hk, if_pos]
        cases b <;> simp [St.enter, St.mk.injEq, List.append_assoc] <;> omega
  | .full cs v cache, hwf, a, st => by
    match cache with
    | some d => simp [walkN, refN, St.enter]
    | none =>
      have hwl : Node.wfList cs = true := by
        simp only [Node.wfN, Bool.and_eq_true] at hwf
        exact hwf.1
      have hwo : Node.wfOpt v = true := by
        simp only [Node.wfN, Bool.and_eq_true] at hwf
        exact hwf.2
      have hcs := walkList_spec k hk b cs hwl st.enter.arena
        { st.enter with arena := st.enter.arena + 1 }
      have hv := walkOpt_spec k hk b v hwo a
        ⟨st.enter.writes ++ (if b then (refList k cs).puts else []),
          st.enter.arena + 1 + (refList k cs).leak,
          st.enter.hashCnt + (refList k cs).digs,
          st.enter.encCnt + (refList k cs).digs,
          st.enter.entries + (refList k cs).ents⟩
      simp only [walkN, refN]
      rw [hcs]
      simp only []
      rw [hv]
      simp only []
      split
      · cases b <;> simp [St.enter, St.mk.injEq, List.append_assoc] <;> omega
      · simp only [hasherHash, hk, if_pos]
        cases b <;> simp [St.enter, St.mk.injEq, List.append_assoc] <;> omega

theorem walkList_spec (k : List Nat → List Nat) (hk : ∀ bs, (k bs).length = 32)
    (b : Bool) :
    ∀ cs : List (Option Node), Node.wfList cs = true → ∀ (a : Nat) (st : St),
      walkList k b cs a st =
        .ok ((refList k cs).rvs, (refList k cs).nds,
          ⟨st.writes ++ (if b then (refList k cs).puts else []),
            st.arena + (refList k cs).leak,
            st.hashCnt + (refList k cs).digs,
            st.encCnt + (refList k cs).digs,
            st.entries + (refList k cs).ents⟩)
  | [], _, a, st => by
    simp [walkList, refList]
  | none :: rest, hwf, a, st => by
    have hr := walkList_spec k hk b rest (by simpa [Node.wfList] using hwf) a st
    simp only [walkList, refList]
    rw [hr]
  | some c :: rest, hwf, a, st => by
    have hwc : Node.wfN c = true := by
      simp only [Node.wfList, Bool.and_eq_true] at hwf
      exact hwf.1
    have hwr : Node.wfList rest = true := by
      simp only [Node.wfList, Bool.and_eq_true] at hwf
      exact hwf.2
    have hc := walkN_spec k hk b c hwc a st
    have hr := walkList_spec k hk b rest hwr a
      ⟨st.writes ++ (if b then (refN k c).puts else []),
        st.arena + (refN k c).leak,
        st.hashCnt + (refN k c).digs,
        st.encCnt + (refN k c).digs,
        st.entries + (refN k c).ents⟩
    simp only [walkList, refList]
    rw [hc]
    simp only []
    rw [hr]
    simp only []
    cases b <;> simp [St.mk.injEq, List.append_assoc] <;> omega

theorem walkOpt_spec (k : List Nat → List Nat) (hk : ∀ bs, (k bs).length = 32)
    (b : Bool) :
    ∀ v : Option Node, Node.wfOpt v = true → ∀ (a : Nat) (st : St),
      walkOpt k b v a st =
        .ok ((refOpt k v).rv, (refOpt k v).nd,
          ⟨st.writes ++ (if b then (refOpt k v).puts else []),
            st.arena + (refOpt k v).leak,
            st.hashCnt + (refOpt k v).digs,
            st.encCnt + (refOpt k v).digs,
            st.entries + (refOpt k v).ents⟩)
  | none, _, a, st => by
    simp [walkOpt, refOpt]
  | some vn, hwf, a, st => by
    have hc := walkN_spec k hk b vn (by simpa [Node.wfOpt] using hwf) a st
    simp only [walkOpt, refOpt]
    rw [hc]

end

mutual

/-- Committing preserves well-formedness of the node graph. -/
theorem refN_wf (k : List Nat → List Nat) :
    ∀ n : Node, Node.wfN ((refN k n).nd) = Node.wfN n
  | .value bs => by simp [refN]
  | .href d => by simp [refN]
  | .unknown => by simp [refN]
  | .short key c cache => by
    match cache with
    | some d => simp [refN]
    | none =>
      have hc := refN_wf k c
      simp only [refN]
      split <;> simp [Node.wfN, hc]
  | .full cs v cache => by
    match cache with
    | some d => simp [refN]
    | none =>
      have hcs := refList_wf k cs
      have hv := refOpt_wf k v
      simp only [refN]
      split <;> simp [Node.wfN, hcs, hv]

theorem refList_wf (k : List Nat → List Nat) :
    ∀ cs : List (Option Node),
      Node.wfList ((refList k cs).nds) = Node.wfList cs
  | [] => by simp [refList]
  | none :: rest => by
    simp [refList, Node.wfList, refList_wf k rest]
  | some c :: rest => by
    simp [refList, Node.wfList, refN_wf k c, refList_wf k rest]

theorem refOpt_wf (k : List Nat → List Nat) :
    ∀ v : Option Node, Node.wfOpt ((refOpt k v).nd) = Node.wfOpt v
  | none => by simp [refOpt]
  | some vn => by simp [refOpt, Node.wfOpt, refN_wf k vn]

end

mutual

/-- Re-walking a committed node reproduces the same encoded value and the
same node, and queues no write and computes no digest: the pure core of
idempotence of the commit pass. -/
theorem refN_idem (k : List Nat → List Nat) :
    ∀ n : Node,
      (refN k ((refN k n).nd)).rv = (refN k n).rv ∧
      (refN k ((refN k n).nd)).nd = (refN k n).nd ∧
      (refN k ((refN k n).nd)).puts = [] ∧
      (refN k ((refN k n).nd)).digs = 0
  | .value bs => by simp [refN]
  | .href d => by simp [refN]
  | .unknown => by simp [refN]
  | .short key c cache => by
    match cache with
    | some d => simp [refN]
    | none =>
      obtain ⟨h1, h2, h3, h4⟩ := refN_idem k c
      simp only [refN]
      split
      · simp only [refN, h1, h2, h3, h4]
        simp_all
      · simp [refN]
  | .full cs v cache => by
    match cache with
    | some d => simp [refN]
    | none =>
      obtain ⟨l1, l2, l3, l4⟩ := refList_idem k cs
      obtain ⟨o1, o2, o3, o4⟩ := refOpt_idem k v
      simp only [refN]
      split
      · simp only [refN, l1, l2, l3, l4, o1, o2, o3, o4]
        simp_all
      · simp [refN]

theorem refList_idem (k : List Nat → List Nat) :
    ∀ cs : List (Option Node),
      (refList k ((refList k cs).nds)).rvs = (refList k cs).rvs ∧
      (refList k ((refList k cs).nds)).nds = (refList k cs).nds ∧
      (refList k ((refList k cs).nds)).puts = [] ∧
      (refList k ((refList k cs).nds)).digs = 0
  | [] => by simp [refList]
  | none :: rest => by
    obtain ⟨h1, h2, h3, h4⟩ := refList_idem k rest
    simp [refList, h1, h2, h3, h4]
  | some c :: rest => by
    obtain ⟨c1, c2, c3, c4⟩ := refN_idem k c
    obtain ⟨h1, h2, h3, h4⟩ := refList_idem k rest
    simp [refList, c1, c2, c3, c4, h1, h2, h3, h4]

theorem refOpt_idem (k : List Nat → List Nat) :
    ∀ v : Option Node,
      (refOpt k ((refOpt k v).nd)).rv = (refOpt k v).rv ∧
      (refOpt k ((refOpt k v).nd)).nd = (refOpt k v).nd ∧
      (refOpt k ((refOpt k v).nd)).puts = [] ∧
      (refOpt k ((refOpt k v).nd)).digs = 0
  | none => by simp [refOpt]
  | some vn => by
    obtain ⟨h1, h2, h3, h4⟩ := refN_idem k vn
    simp [refOpt, h1, h2, h3, h4]

end

/-- The digest primitive never surfaces a recoverable error outcome. -/
theorem hasherHash_no_error (k : List Nat → List Nat) (data : List Nat)
    (m : String) : hasherHash k data ≠ .error m := by
  simp only [hasherHash]
  split <;> simp

mutual

/-- The commit walk never surfaces a recoverable error outcome: every
non-ok outcome is a fatal fault. -/
theorem walkN_no_error (k : List Nat → List Nat) (b : Bool) :
    ∀ (n : Node) (a : Nat) (st : St) (m : String),
      walkN k b n a st ≠ .error m
  | .value bs, a, st, m => by simp [walkN]
  | .href d, a, st, m => by simp [walkN]
  | .unknown, a, st, m => by simp [walkN]
  | .short key c cache, a, st, m => by
    match cache with
    | some d => simp [walkN]
    | none =>
      simp only [walkN]
      cases hres : walkN k b c a st.enter with
      | ok x =>
        obtain ⟨cv, c1, st1⟩ := x
        simp only []
        split
        · simp
        · cases hh : hasherHash k
              (rlpEncode (RVal.arr [RVal.bytes (encodeCompact key), cv])) with
          | ok dg => simp [hh]
          | panic m2 => simp [hh]
          | error m2 => exact absurd hh (hasherHash_no_error k _ m2)
      | panic m2 => simp
      | error m2 => exact absurd hres (walkN_no_error k b c a st.enter m2)
  | .full cs v cache, a, st, m => by
    match cache with
    | some d => simp [walkN]
    | none =>
      simp only [walkN]
      cases hcs : walkList k b cs st.enter.arena
          { st.enter with arena := st.enter.arena + 1 } with
      | ok x =>
        obtain ⟨cvs, cs1, st2⟩ := x
        simp only []
        cases hv : walkOpt k b v a st2 with
        | ok y =>
          obtain ⟨vv, v1, st3⟩ := y
          simp only []
          split
          · simp
          · cases hh : hasherHash k (rlpEncode (RVal.arr (cvs ++ [vv]))) with
            | ok dg => simp [hh]
            | panic m2 => simp [hh]
            | error m2 => exact absurd hh (hasherHash_no_error k _ m2)
        | panic m2 => simp
        | error m2 => exact absurd hv (walkOpt_no_error k b v a st2 m2)
      | panic m2 => simp
      | error m2 =>
        exact absurd hcs
          (walkList_no_error k b cs st.enter.arena
            { st.enter with arena := st.enter.arena + 1 } m2)

theorem walkList_no_error (k : List Nat → List Nat) (b : Bool) :
    ∀ (cs : List (Option Node)) (a : Nat) (st : St) (m : String),
      walkList k b cs a st ≠ .error m
  | [], a, st, m => by simp [walkList]
  | none :: rest, a, st, m => by
    simp only [walkList]
    cases hr : walkList k b rest a st with
    | ok x => obtain ⟨vs, cs1, st1⟩ := x; simp
    | panic m2 => simp
    | error m2 => exact absurd hr (walkList_no_error k b rest a st m2)
  | some c :: rest, a, st, m => by
    simp only [walkList]
    cases hc : walkN k b c a st with
    | ok x =>
      obtain ⟨cv, c1, st1⟩ := x
      simp only []
      cases hr : walkList k b rest a st1 with
      | ok y => obtain ⟨vs, cs1, st2⟩ := y; simp
      | panic m2 => simp
      | error m2 => exact absurd hr (walkList_no_error k b rest a st1 m2)
    | panic m2 => simp
    | error m2 => exact absurd hc (walkN_no_error k b c a st m2)

theorem walkOpt_no_error (k : List Nat → List Nat) (b : Bool) :
    ∀ (v : Option Node) (a : Nat) (st : St) (m : String),
      walkOpt k b v a st ≠ .error m
  | none, a, st, m => by simp [walkOpt]
  | some vn, a, st, m => by
    simp only [walkOpt]
    cases hc : walkN k b vn a st with
    | ok x => obtain ⟨vv, v1, st1⟩ := x; simp
    | panic m2 => simp
    | error m2 => exact absurd hc (walkN_no_error k b vn a st m2)

end

/-- The top-level Hash operation never surfaces a recoverable error
outcome. -/
theorem Hash_no_error (k : List Nat → List Nat) :
    ∀ (t : Txn) (m : String), Txn.Hash k t ≠ .error m := by
  intro t m
  match t with
  | ⟨none, b⟩ => simp [Txn.Hash]
  | ⟨some n, b⟩ =>
    simp only [Txn.Hash]
    cases hres : walkN k b n 0 { St.init with arena := 1 } with
    | ok x =>
      obtain ⟨val, n1, st1⟩ := x
      cases val <;> simp only [] <;> split <;> simp
    | panic m2 => simp
    | error m2 =>
      exact absurd hres (walkN_no_error k b n 0 { St.init with arena := 1 } m2)

/-- Pure mirror of the REDO block of Txn.Hash: the root digest produced for
a non-empty trie as a function of the walk result. -/
def rootDigest (k : List Nat → List Nat) (n : Node) : List Nat :=
  match (refN k n).rv with
  | .bytes bs => if bs.length ≠ 32 then k bs else bs
  | rv => k (rlpEncode rv)

/-- Pure mirror of the write queued by the REDO block of Txn.Hash itself
(beyond the writes queued inside the walk). -/
def topPut (k : List Nat → List Nat) (n : Node) : List (List Nat × List Nat) :=
  match (refN k n).rv with
  | .bytes bs => if bs.length ≠ 32 then [(k bs, bs)] else []
  | rv => [(k (rlpEncode rv), rlpEncode rv)]

/-- Pure mirror of the final effect state of Txn.Hash on a non-empty trie. -/
def finalSt (k : List Nat → List Nat) (b : Bool) (n : Node) : St :=
  ⟨if b then (refN k n).puts ++ topPut k n else [], 0,
    (refN k n).digs, (refN k n).digs, (refN k n).ents⟩

/-- Top-level bridge: on a well-formed root and a 32-byte digest primitive,
Txn.Hash succeeds and returns the pure root digest, the committed root node
and the pure final effect state. -/
theorem Hash_spec (k : List Nat → List Nat) (hk : ∀ bs, (k bs).length = 32)
    (b : Bool) (n : Node) (hwf : Node.wfN n = true) :
    Txn.Hash k ⟨some n, b⟩ =
      .ok (rootDigest k n, some ((refN k n).nd), finalSt k b n) := by
  have hb := walkN_spec k hk b n hwf 0 { St.init with arena := 1 }
  simp only [Txn.Hash]
  rw [hb]
  simp only []
  cases hrv : (refN k n).rv with
  | bytes bs =>
    simp only [rootDigest, topPut, finalSt, hrv]
    by_cases hlen : bs.length ≠ 32
    · simp only [if_pos hlen]
      cases b <;> simp [St.init, St.mk.injEq, List.append_assoc]
    · simp only [if_neg hlen]
      cases b <;> simp [St.init, St.mk.injEq, List.append_assoc]
  | null =>
    simp only [rootDigest, topPut, finalSt, hrv]
    cases b <;> simp [St.init, St.mk.injEq, List.append_assoc]
  | arr l =>
    simp only [rootDigest, topPut, finalSt, hrv]
    cases b <;> simp [St.init, St.mk.injEq, List.append_assoc]

/-- The proof-collapse helper for a ShortNode
(hasher.hashShortNodeChildren): returns the collapsed and the cached copy.
The collapsed copy has its key expanded to hex nibbles; the child is left
untouched (the child-replacement step of the source is commented out). -/
def hashShortNodeChildren (key : List Nat) (c : Node)
    (cache : Option (List Nat)) : Node × Node :=
  (.short (bytesToHexNibbles key) c cache, .short key c cache)

/-- The proof-collapse helper for a FullNode (hasher.hashFullNodeChildren):
both copies are returned unchanged (the child-collapsing loop of the source
is commented out). -/
def hashFullNodeChildren (cs : List (Option Node)) (v : Option Node)
    (cache : Option (List Nat)) : Node × Node :=
  (.full cs v cache, .full cs v cache)

/-- hasher.shortnodeToHash: the body of the source is stubbed out and the
function always returns the nil node, modelled as none. -/
def shortnodeToHash (_ : Node) (_ : Bool) : Option Node := none

/-- hasher.fullnodeToHash: the body of the source is stubbed out and the
function always returns the nil node, modelled as none. -/
def fullnodeToHash (_ : Node) (_ : Bool) : Option Node := none

/-- hasher.proofHash: the proof-material extraction primitive.  Returns the
collapsed node and the hashed node (the Go nil node is modelled as none). -/
def proofHash : Node → Node × Option Node
  | .short key c cache =>
    let sn := (hashShortNodeChildren key c cache).1
    (sn, shortnodeToHash sn false)
  | .full cs v cache =>
    let fn := (hashFullNodeChildren cs v cache).1
    (fn, fullnodeToHash fn false)
  | n => (n, some n)

/-- The composite value a ShortNode or FullNode contributes before the
inline-or-hash decision, as a pure function of the node. -/
def compOf (k : List Nat → List Nat) : Node → RVal
  | .short key c _ => .arr [.bytes (encodeCompact key), (refN k c).rv]
  | .full cs v _ => .arr ((refList k cs).rvs ++ [(refOpt k v).rv])
  | _ => .null

/-- The writes queued for the descendants of a ShortNode or FullNode during
its walk (everything except the write for the node itself). -/
def subPuts (k : List Nat → List Nat) : Node → List (List Nat × List Nat)
  | .short _ c _ => (refN k c).puts
  | .full cs v _ => (refList k cs).puts ++ (refOpt k v).puts
  | _ => []

/-- The encoded-child slot a single optional child contributes. -/
def childSlot (k : List Nat → List Nat) : Option Node → RVal
  | none => .null
  | some c => (refN k c).rv

/-- The children slots of the walk are exactly the slot function mapped over
the children list in ascending index order. -/
theorem refList_rvs_map (k : List Nat → List Nat) :
    ∀ cs : List (Option Node), (refList k cs).rvs = cs.map (childSlot k)
  | [] => by simp [refList]
  | none :: rest => by simp [refList, childSlot, refList_rvs_map k rest]
  | some c :: rest => by simp [refList, childSlot, refList_rvs_map k rest]

/-- A stand-in digest primitive for concrete evaluations: it always returns
32 zero bytes. -/
def keccakStub : List Nat → List Nat := fun _ => List.replicate 32 0

theorem keccakStub_len : ∀ bs, (keccakStub bs).length = 32 := fun _ => by
  simp [keccakStub]

/-- Dichotomy of the commit walk on an uncached ShortNode or FullNode: below
the 32-byte threshold the composite is returned with no digest cached and
only the writes of the descendants; at or above it the digest of the
marshalled composite is returned, cached, and queued as the last write. -/
theorem refN_comp_cases (k : List Nat → List Nat) (n : Node)
    (hshape : (∃ key c, n = Node.short key c none) ∨
      ∃ cs v, n = Node.full cs v none) :
    ((compOf k n).len < 32 ∧ (refN k n).rv = compOf k n ∧
      Node.hashOf ((refN k n).nd) = none ∧ (refN k n).puts = subPuts k n) ∨
    (¬(compOf k n).len < 32 ∧
      (refN k n).rv = .bytes (k (rlpEncode (compOf k n))) ∧
      Node.hashOf ((refN k n).nd) = some (k (rlpEncode (compOf k n))) ∧
      (refN k n).puts =
        subPuts k n ++ [(k (rlpEncode (compOf k n)), rlpEncode (compOf k n))]) := by
  rcases hshape with ⟨key, c, rfl⟩ | ⟨cs, v, rfl⟩
  · by_cases h : (compOf k (Node.short key c none)).len < 32
    · left
      simp only [compOf] at h
      refine ⟨by simpa [compOf] using h, ?_, ?_, ?_⟩ <;>
        simp [refN, compOf, subPuts, Node.hashOf, h]
    · right
      simp only [compOf] at h
      refine ⟨by simpa [compOf] using h, ?_, ?_, ?_⟩ <;>
        simp [refN, compOf, subPuts, Node.hashOf, h]
  · by_cases h : (compOf k (Node.full cs v none)).len < 32
    · left
      simp only [compOf] at h
      refine ⟨by simpa [compOf] using h, ?_, ?_, ?_⟩ <;>
        simp [refN, compOf, subPuts, Node.hashOf, h]
    · right
      simp only [compOf] at h
      refine ⟨by simpa [compOf] using h, ?_, ?_, ?_⟩ <;>
        simp [refN, compOf, subPuts, Node.hashOf, h]

/-- C5: when the trie root is absent, the top-level Hash operation returns
the fixed literal 32-byte empty-trie digest with the pristine effect state —
no recursion (zero node entries), no hashing (zero digest computations) and
no sink write. -/
theorem c5_empty_trie_constant (k : List Nat → List Nat) (b : Bool) :
    Txn.Hash k ⟨none, b⟩ = .ok (emptyRoot, none, St.init) ∧
    emptyRoot.length = 32 :=
  ⟨rfl, by decide⟩

/-- C7: reaching an unrecognized node variant aborts the walk with a panic;
a digest primitive that produces a length other than 32 bytes makes
hasher.Hash panic; the Hash operation never surfaces a recoverable error
outcome; and the panic of an unrecognized root propagates out of the
top-level Hash. -/
theorem c7_invariant_violations_fatal (k : List Nat → List Nat) (b : Bool) :
    (∀ (a : Nat) (st : St),
      walkN k b .unknown a st = .panic "unknown node type") ∧
    (∀ data, (k data).length ≠ 32 →
      hasherHash k data = .panic "incorrect length") ∧
    (∀ (t : Txn) (m : String), Txn.Hash k t ≠ .error m) ∧
    Txn.Hash k ⟨some .unknown, b⟩ = .panic "unknown node type" := by
  refine ⟨fun a st => rfl, fun data h => ?_, Hash_no_error k, rfl⟩
  simp [hasherHash, h]

/-- Witness for C7 at a concrete broken digest primitive and a concrete
unrecognized node. -/
theorem c7_witness :
    hasherHash (fun _ => [0]) [1, 2] = .panic "incorrect length" ∧
    walkN (fun _ => [0]) true .unknown 0 St.init =
      .panic "unknown node type" ∧
    Txn.Hash (fun _ => [0]) ⟨some .unknown, true⟩ =
      .panic "unknown node type" :=
  ⟨(c7_invariant_violations_fatal (fun _ => [0]) true).2.1 [1, 2] (by decide),
   (c7_invariant_violations_fatal (fun _ => [0]) true).1 0 St.init,
   (c7_invariant_violations_fatal (fun _ => [0]) true).2.2.2⟩

/-- C9: proofHash passes a ValueNode or a HashReference through unchanged as
both the collapsed and the hashed component; being a pure function, it
performs no cached-digest mutation and no sink write, and it is not an
error. -/
theorem c9_proofHash_leaf_passthrough (bs d : List Nat) :
    proofHash (.value bs) = (.value bs, some (.value bs)) ∧
    proofHash (.href d) = (.href d, some (.href d)) :=
  ⟨rfl, rfl⟩

/-- C8: evaluation of proofHash at the failing input, a ShortNode with key
byte 0x12 over a one-byte value leaf.  The collapsed component keeps the
original child (only the key is expanded to hex nibbles) and the hashed
component is the nil node, because shortnodeToHash is stubbed out — contrary
to its own documentation and to the spec, which require the digest (or small
inline value) of the collapsed node and a child replaced by its referenced
form. -/
theorem c8_proofHash_short_stubbed :
    proofHash (.short [0x12] (.value [2]) none) =
      (.short [1, 2, 16] (.value [2]) none, none) := by decide

/-- C1 counterexample: a non-empty trie whose root already carries a cached
digest commits with zero sink writes — the walk returns the cached 32-byte
digest, the top level copies it as the root, and no Put is queued anywhere,
refuting the claim that every commit of a non-empty trie performs at least
one sink write for the root. -/
theorem c1_cached_root_emits_no_write :
    Txn.Hash keccakStub
      ⟨some (.short [1, 16] (.value [2]) (some (List.replicate 32 5))), true⟩ =
    .ok (List.replicate 32 5,
      some (.short [1, 16] (.value [2]) (some (List.replicate 32 5))),
      ⟨[], 0, 0, 0, 1⟩) := by decide

/-- C1 (amended): with a sink attached, for a non-empty trie whose root
carries no cached digest and is not itself a 32-byte ValueNode, the
top-level Hash reduces the result to a 32-byte digest and at least one sink
write is queued, the last one carrying the root digest as its key — in
particular this holds when the root encoding is shorter than 32 bytes, which
the top level hashes and queues despite the usual inlining rule. -/
theorem c1_root_reduction_amended (k : List Nat → List Nat)
    (hk : ∀ bs, (k bs).length = 32) (n : Node) (hwf : Node.wfN n = true)
    (hnc : Node.hashOf n = none)
    (hnv : ∀ bs, n = Node.value bs → bs.length ≠ 32) :
    ∃ (r : List Nat) (n1 : Node) (st1 : St),
      Txn.Hash k ⟨some n, true⟩ = .ok (r, some n1, st1) ∧
      r.length = 32 ∧ st1.writes ≠ [] ∧
      ∃ bs, st1.writes.getLast? = some (r, bs) := by
  refine ⟨rootDigest k n, (refN k n).nd, finalSt k true n,
    Hash_spec k hk true n hwf, ?_⟩
  have hfin : (finalSt k true n).writes = (refN k n).puts ++ topPut k n := by
    simp [finalSt]
  cases n with
  | href d => simp [Node.hashOf] at hnc
  | unknown => simp [Node.wfN] at hwf
  | value buf =>
    have hl := hnv buf rfl
    refine ⟨?_, ?_, buf, ?_⟩
    · simp [rootDigest, refN, hl, hk]
    · simp [hfin, topPut, refN, hl]
    · simp [hfin, topPut, rootDigest, refN, hl]
  | short key0 c cache =>
    simp only [Node.hashOf] at hnc
    subst hnc
    rcases refN_comp_cases k _ (Or.inl ⟨key0, c, rfl⟩) with
      ⟨hlt, hrv, hnd, hputs⟩ | ⟨hge, hrv, hnd, hputs⟩
    · refine ⟨?_, ?_, rlpEncode (compOf k (.short key0 c none)), ?_⟩
      · simp only [rootDigest, hrv, compOf]
        simp [hk]
      · simp only [hfin, topPut, hrv, compOf]
        simp
      · simp only [hfin, topPut, hrv, compOf, rootDigest]
        simp [List.getLast?_concat]
    · refine ⟨?_, ?_, rlpEncode (compOf k (.short key0 c none)), ?_⟩
      · simp only [rootDigest, hrv]
        simp [hk]
      · simp only [hfin, topPut, hrv, hputs]
        simp [hk]
      · simp only [hfin, topPut, hrv, hputs, rootDigest]
        simp [hk, List.getLast?_concat]
  | full cs v cache =>
    simp only [Node.hashOf] at hnc
    subst hnc
    rcases refN_comp_cases k _ (Or.inr ⟨cs, v, rfl⟩) with
      ⟨hlt, hrv, hnd, hputs⟩ | ⟨hge, hrv, hnd, hputs⟩
    · refine ⟨?_, ?_, rlpEncode (compOf k (.full cs v none)), ?_⟩
      · simp only [rootDigest, hrv, compOf]
        simp [hk]
      · simp only [hfin, topPut, hrv, compOf]
        simp
      · simp only [hfin, topPut, hrv, compOf, rootDigest]
        simp [List.getLast?_concat]
    · refine ⟨?_, ?_, rlpEncode (compOf k (.full cs v none)), ?_⟩
      · simp only [rootDigest, hrv]
        simp [hk]
      · simp only [hfin, topPut, hrv, hputs]
        simp [hk]
      · simp only [hfin, topPut, hrv, hputs, rootDigest]
        simp [hk, List.getLast?_concat]

/-- Witness for C1 at a concrete short-root trie whose encoding is below 32
bytes. -/
theorem c1_witness :
    ∃ (r : List Nat) (n1 : Node) (st1 : St),
      Txn.Hash keccakStub ⟨some (.short [1, 16] (.value [2]) none), true⟩ =
        .ok (r, some n1, st1) ∧
      r.length = 32 ∧ st1.writes ≠ [] ∧
      ∃ bs, st1.writes.getLast? = some (r, bs) :=
  c1_root_reduction_amended keccakStub keccakStub_len
    (.short [1, 16] (.value [2]) none) (by decide) (by decide)
    (fun bs h => Node.noConfusion h)

/-- C2: a node that already carries a cached digest makes the walk return a
byte value wrapping that digest immediately — the node is unchanged, no
child is visited, and no write, digest computation or marshal is recorded
(only the entry of the node itself); consequently re-running the top-level
Hash on the committed root returns the same root digest and the same node
with zero digest computations and zero marshal operations on the second
pass. -/
theorem c2_cached_digest_idempotent (k : List Nat → List Nat)
    (hk : ∀ bs, (k bs).length = 32) (b : Bool) :
    (∀ (n : Node) (d : List Nat), Node.hashOf n = some d →
      ∀ (a : Nat) (st : St), walkN k b n a st = .ok (.bytes d, n, st.enter)) ∧
    (∀ n : Node, Node.wfN n = true →
      ∀ (r : List Nat) (n1 : Node) (st1 : St),
        Txn.Hash k ⟨some n, b⟩ = .ok (r, some n1, st1) →
        ∃ st2 : St, Txn.Hash k ⟨some n1, b⟩ = .ok (r, some n1, st2) ∧
          st2.hashCnt = 0 ∧ st2.encCnt = 0) := by
  constructor
  · intro n d hd a st
    match n, hd with
    | .value bs, hd => simp [Node.hashOf] at hd
    | .unknown, hd => simp [Node.hashOf] at hd
    | .href d0, hd =>
      simp only [Node.hashOf, Option.some.injEq] at hd
      subst hd
      simp [walkN]
    | .short key c cache, hd =>
      simp only [Node.hashOf] at hd
      subst hd
      simp [walkN]
    | .full cs v cache, hd =>
      simp only [Node.hashOf] at hd
      subst hd
      simp [walkN]
  · intro n hwf r n1 st1 hH
    rw [Hash_spec k hk b n hwf] at hH
    simp only [Res.ok.injEq, Prod.mk.injEq, Option.some.injEq] at hH
    obtain ⟨hr, hn1, hst⟩ := hH
    obtain ⟨i1, i2, i3, i4⟩ := refN_idem k n
    have hwf1 : Node.wfN ((refN k n).nd) = true := by
      rw [refN_wf]
      exact hwf
    have hroot : rootDigest k ((refN k n).nd) = rootDigest k n := by
      simp only [rootDigest, i1]
    refine ⟨finalSt k b ((refN k n).nd), ?_, ?_, ?_⟩
    · rw [← hn1, ← hr, Hash_spec k hk b ((refN k n).nd) hwf1, hroot, i2]
    · simp [finalSt, i4]
    · simp [finalSt, i4]

/-- Witness for C2: a cached HashReference returns its digest immediately,
and re-hashing a small committed trie reproduces the root with zero digest
computations. -/
theorem c2_witness :
    walkN keccakStub true (.href (List.replicate 32 3)) 0 St.init =
      .ok (.bytes (List.replicate 32 3), .href (List.replicate 32 3),
        St.init.enter) ∧
    ∃ st2 : St,
      Txn.Hash keccakStub ⟨some (.short [1, 16] (.value [2]) none), true⟩ =
        .ok (List.replicate 32 0, some (.short [1, 16] (.value [2]) none),
          st2) ∧
      st2.hashCnt = 0 ∧ st2.encCnt = 0 :=
  ⟨(c2_cached_digest_idempotent keccakStub keccakStub_len true).1
      (.href (List.replicate 32 3)) (List.replicate 32 3) rfl 0 St.init,
   (c2_cached_digest_idempotent keccakStub keccakStub_len true).2
      (.short [1, 16] (.value [2]) none) (by decide)
      (List.replicate 32 0) (.short [1, 16] (.value [2]) none)
      ⟨[(List.replicate 32 0, [0xc2, 49, 2])], 0, 0, 0, 2⟩ (by decide)⟩

/-- C3: for an uncached ShortNode or FullNode subtree (with a sink
attached), the walk returns the composite inlined, queues no write for the
subtree itself and caches no digest when the encoded length is below 32
bytes; otherwise it returns the exactly 32-byte digest of the marshalled
composite, caches it on the node, and queues the (digest, bytes) pair as the
last write. -/
theorem c3_subtree_inline_or_hash (k : List Nat → List Nat)
    (hk : ∀ bs, (k bs).length = 32) (n : Node)
    (hshape : (∃ key c, n = Node.short key c none) ∨
      ∃ cs v, n = Node.full cs v none)
    (hwf : Node.wfN n = true) (a : Nat) (st : St) (rv : RVal) (n1 : Node)
    (st1 : St) (hw : walkN k true n a st = .ok (rv, n1, st1)) :
    ((compOf k n).len < 32 →
      rv = compOf k n ∧ Node.hashOf n1 = none ∧
      st1.writes = st.writes ++ subPuts k n) ∧
    (¬(compOf k n).len < 32 →
      rv = .bytes (k (rlpEncode (compOf k n))) ∧
      (k (rlpEncode (compOf k n))).length = 32 ∧
      Node.hashOf n1 = some (k (rlpEncode (compOf k n))) ∧
      st1.writes = st.writes ++ subPuts k n
        ++ [(k (rlpEncode (compOf k n)), rlpEncode (compOf k n))]) := by
  rw [walkN_spec k hk true n hwf a st] at hw
  simp only [Res.ok.injEq, Prod.mk.injEq] at hw
  obtain ⟨h1, h2, h3⟩ := hw
  rcases refN_comp_cases k n hshape with
    ⟨hlt, hrv, hnd, hputs⟩ | ⟨hge, hrv, hnd, hputs⟩
  · refine ⟨fun _ => ⟨?_, ?_, ?_⟩, fun hc => absurd hlt hc⟩
    · rw [← h1, hrv]
    · rw [← h2, hnd]
    · rw [← h3]
      simp [hputs]
  · refine ⟨fun hc => absurd hc hge, fun _ => ⟨?_, hk _, ?_, ?_⟩⟩
    · rw [← h1, hrv]
    · rw [← h2, hnd]
    · rw [← h3]
      simp [hputs, List.append_assoc]

/-- Witness for C3 at a concrete small ShortNode subtree. -/
theorem c3_witness :
    ((compOf keccakStub (.short [1, 16] (.value [2]) none)).len < 32 →
      RVal.arr [.bytes [49], .bytes [2]] =
          compOf keccakStub (.short [1, 16] (.value [2]) none) ∧
      Node.hashOf (.short [1, 16] (.value [2]) none) = none ∧
      (⟨[], 0, 0, 0, 2⟩ : St).writes =
        St.init.writes ++ subPuts keccakStub (.short [1, 16] (.value [2]) none)) ∧
    (¬(compOf keccakStub (.short [1, 16] (.value [2]) none)).len < 32 →
      RVal.arr [.bytes [49], .bytes [2]] =
        .bytes (keccakStub (rlpEncode
          (compOf keccakStub (.short [1, 16] (.value [2]) none)))) ∧
      (keccakStub (rlpEncode
        (compOf keccakStub (.short [1, 16] (.value [2]) none)))).length = 32 ∧
      Node.hashOf (.short [1, 16] (.value [2]) none) =
        some (keccakStub (rlpEncode
          (compOf keccakStub (.short [1, 16] (.value [2]) none)))) ∧
      (⟨[], 0, 0, 0, 2⟩ : St).writes =
        St.init.writes ++ subPuts keccakStub (.short [1, 16] (.value [2]) none)
          ++ [(keccakStub (rlpEncode
                (compOf keccakStub (.short [1, 16] (.value [2]) none))),
              rlpEncode (compOf keccakStub (.short [1, 16] (.value [2]) none)))]) :=
  c3_subtree_inline_or_hash keccakStub keccakStub_len
    (.short [1, 16] (.value [2]) none)
    (Or.inl ⟨[1, 16], .value [2], rfl⟩) (by decide) 0 St.init
    (.arr [.bytes [49], .bytes [2]]) (.short [1, 16] (.value [2]) none)
    ⟨[], 0, 0, 0, 2⟩ (by decide)

/-- C4: the walk of an uncached FullNode builds a 17-item composite whose
first 16 slots are the children slots in ascending index order (an absent
child contributing the null marker) followed by the value slot (null marker
when absent); the result — inlined composite or its digest — is a pure
function of the children list and the value alone, so node graphs with
identical logical content yield byte-identical encodings and digests. -/
theorem c4_fullnode_slot_order (k : List Nat → List Nat)
    (hk : ∀ bs, (k bs).length = 32) (b : Bool) (cs : List (Option Node))
    (v : Option Node) (hwf : Node.wfN (.full cs v none) = true)
    (hlen : cs.length = 16) (a : Nat) (st : St) :
    (cs.map (childSlot k) ++ [(refOpt k v).rv]).length = 17 ∧
    ∃ (n1 : Node) (st1 : St),
      walkN k b (.full cs v none) a st =
        .ok (if (RVal.arr (cs.map (childSlot k) ++ [(refOpt k v).rv])).len < 32
             then RVal.arr (cs.map (childSlot k) ++ [(refOpt k v).rv])
             else .bytes (k (rlpEncode
               (RVal.arr (cs.map (childSlot k) ++ [(refOpt k v).rv])))),
          n1, st1) := by
  constructor
  · simp [hlen]
  · refine ⟨(refN k (.full cs v none)).nd,
      ⟨st.writes ++ (if b then (refN k (.full cs v none)).puts else []),
        st.arena + (refN k (.full cs v none)).leak,
        st.hashCnt + (refN k (.full cs v none)).digs,
        st.encCnt + (refN k (.full cs v none)).digs,
        st.entries + (refN k (.full cs v none)).ents⟩, ?_⟩
    rw [walkN_spec k hk b _ hwf a st]
    have hrv : (refN k (.full cs v none)).rv =
        (if (RVal.arr (cs.map (childSlot k) ++ [(refOpt k v).rv])).len < 32
         then RVal.arr (cs.map (childSlot k) ++ [(refOpt k v).rv])
         else .bytes (k (rlpEncode
           (RVal.arr (cs.map (childSlot k) ++ [(refOpt k v).rv]))))) := by
      by_cases hc :
          (RVal.arr (cs.map (childSlot k) ++ [(refOpt k v).rv])).len < 32
      · simp only [refN]
        rw [refList_rvs_map k cs]
        simp [hc]
      · simp only [refN]
        rw [refList_rvs_map k cs]
        simp [hc]
    rw [hrv]

/-- Witness for C4 at a concrete FullNode with sixteen absent children and a
one-byte value. -/
theorem c4_witness :
    ((List.replicate 16 (none : Option Node)).map (childSlot keccakStub) ++
      [(refOpt keccakStub (some (.value [5]))).rv]).length = 17 ∧
    ∃ (n1 : Node) (st1 : St),
      walkN keccakStub true
          (.full (List.replicate 16 none) (some (.value [5])) none) 0 St.init =
        .ok (if (RVal.arr ((List.replicate 16 (none : Option Node)).map
                  (childSlot keccakStub) ++
                [(refOpt keccakStub (some (.value [5]))).rv])).len < 32
             then RVal.arr ((List.replicate 16 (none : Option Node)).map
                  (childSlot keccakStub) ++
                [(refOpt keccakStub (some (.value [5]))).rv])
             else .bytes (keccakStub (rlpEncode
               (RVal.arr ((List.replicate 16 (none : Option Node)).map
                    (childSlot keccakStub) ++
                  [(refOpt keccakStub (some (.value [5]))).rv])))),
          n1, st1) :=
  c4_fullnode_slot_order keccakStub keccakStub_len true
    (List.replicate 16 none) (some (.value [5])) (by decide) (by decide) 0
    St.init

/-- C6 counterexample: an uncached FullNode whose composite encoding is 18
bytes (below the inline threshold) returns with the arena acquired for its
children still held — one arena above the entry count — although all 16
child encodings were materialized, refuting the claim that the children
arena batch is always released before the call returns. -/
theorem c6_inlined_fullnode_keeps_arena :
    walkN keccakStub true (.full (List.replicate 16 none) none none) 0
        St.init =
      .ok (.arr (List.replicate 16 RVal.null ++ [RVal.null]),
        .full (List.replicate 16 none) none none, ⟨[], 1, 0, 0, 1⟩) ∧
    St.init.arena = 0 := by
  constructor
  · decide
  · rfl

/-- C6 (amended): the walk of an uncached FullNode encodes the 16 children
into a freshly acquired arena and the value into the arena of the parent;
the batch acquired since the children checkpoint is released before the
call returns exactly when the composite is hashed (encoded length at least
32 bytes) — the held-arena count then returns to its entry value; when the
composite is inlined the children arena (and any nested acquisitions)
remains held, to be released only by the top-level release. -/
theorem c6_arena_release_amended (k : List Nat → List Nat)
    (hk : ∀ bs, (k bs).length = 32) (b : Bool) (cs : List (Option Node))
    (v : Option Node) (hwf : Node.wfN (.full cs v none) = true) (a : Nat)
    (st : St) (rv : RVal) (n1 : Node) (st1 : St)
    (hw : walkN k b (.full cs v none) a st = .ok (rv, n1, st1)) :
    (¬(compOf k (.full cs v none)).len < 32 → st1.arena = st.arena) ∧
    ((compOf k (.full cs v none)).len < 32 → st.arena + 1 ≤ st1.arena) := by
  rw [walkN_spec k hk b _ hwf a st] at hw
  simp only [Res.ok.injEq, Prod.mk.injEq] at hw
  obtain ⟨h1, h2, h3⟩ := hw
  have hleak : (refN k (.full cs v none)).leak =
      if (compOf k (.full cs v none)).len < 32
      then 1 + (refList k cs).leak + (refOpt k v).leak else 0 := by
    by_cases hc : (compOf k (.full cs v none)).len < 32
    · simp only [compOf] at hc
      simp [refN, compOf, hc]
    · simp only [compOf] at hc
      simp [refN, compOf, hc]
  constructor
  · intro hge
    rw [← h3]
    simp [hleak, hge]
  · intro hlt
    rw [← h3]
    simp [hleak, hlt]
    omega

/-- Witness for C6 at a concrete FullNode whose composite encoding is 48
bytes: the held-arena count returns to its entry value 5. -/
theorem c6_witness :
    (¬(compOf keccakStub (.full (some (.value (List.replicate 30 7)) ::
          List.replicate 15 none) none none)).len < 32 →
      (⟨[(List.replicate 32 0,
          239 :: 158 :: (List.replicate 30 7 ++ List.replicate 15 128 ++
            [128]))], 5, 1, 1, 2⟩ : St).arena =
        (⟨[], 5, 0, 0, 0⟩ : St).arena) ∧
    ((compOf keccakStub (.full (some (.value (List.replicate 30 7)) ::
          List.replicate 15 none) none none)).len < 32 →
      (⟨[], 5, 0, 0, 0⟩ : St).arena + 1 ≤
        (⟨[(List.replicate 32 0,
          239 :: 158 :: (List.replicate 30 7 ++ List.replicate 15 128 ++
            [128]))], 5, 1, 1, 2⟩ : St).arena) :=
  c6_arena_release_amended keccakStub keccakStub_len true
    (some (.value (List.replicate 30 7)) :: List.replicate 15 none) none
    (by decide) 5 ⟨[], 5, 0, 0, 0⟩ (.bytes (List.replicate 32 0))
    (.full (some (.value (List.replicate 30 7)) :: List.replicate 15 none)
      none (some (List.replicate 32 0)))
    ⟨[(List.replicate 32 0,
      239 :: 158 :: (List.replicate 30 7 ++ List.replicate 15 128 ++ [128]))],
      5, 1, 1, 2⟩ (by decide)

/-- C10: the root digest returned by the top-level Hash operation does not
depend on whether a batch sink is attached: on the same well-formed root,
Hash with and without a sink yields the same root digest (the sink
influences only which writes are emitted). -/
theorem c10_root_digest_sink_independent (k : List Nat → List Nat)
    (hk : ∀ bs, (k bs).length = 32) :
    ∀ ro : Option Node, Node.wfOpt ro = true →
      rootOf (Txn.Hash k ⟨ro, true⟩) = rootOf (Txn.Hash k ⟨ro, false⟩) := by
  intro ro hwf
  cases ro with
  | none => rfl
  | some n =>
    have hw : Node.wfN n = true := by simpa [Node.wfOpt] using hwf
    rw [Hash_spec k hk true n hw, Hash_spec k hk false n hw]
    rfl

/-- Witness for C10 at a concrete small trie. -/
theorem c10_witness :
    rootOf (Txn.Hash keccakStub
      ⟨some (.short [1, 16] (.value [2]) none), true⟩) =
    rootOf (Txn.Hash keccakStub
      ⟨some (.short [1, 16] (.value [2]) none), false⟩) :=
  c10_root_digest_sink_independent keccakStub keccakStub_len
    (some (.short [1, 16] (.value [2]) none)) (by decide)
